import Mathlib

/-!
Verification of the gokrazy/firmware updater (`cmd/gokr-update-firmware/firmware.go`)
against its natural-language specification.

Shallow embedding conventions: Go bytes are `Nat` (kept below 256 by the
operations that produce them), Go strings are Lean `String`s, the Go
`map[string]contentEntry` built by `githubContents` is an association list with
replace-on-insert (Go map assignment semantics), fallible operations return
`Except`, and the streaming `hash.Hash` of `crypto/sha1` is an explicit digest
state (word vector, pending buffer, byte count) with `Write`/`Sum` operations.
-/

namespace GokrFirmware

/-- Embedding of the Go struct `contentEntry` (firmware.go): one entry of the
GitHub contents listing, decoded from JSON. -/
structure ContentEntry where
  name : String
  sha : String
  size : Int
  gitURL : String
deriving Repr, DecidableEq

/-- Keys-to-values state of a Go `map[string]contentEntry`, as an association
list without duplicate keys.  Ordering is irrelevant to the embedded program:
it only ever looks keys up. -/
abbrev ContentsMap := List (String × ContentEntry)

/-- One Go map assignment `m[k] = v`: replace the binding of `k` when present,
otherwise add it. -/
def mapInsert (m : ContentsMap) (k : String) (v : ContentEntry) : ContentsMap :=
  match m with
  | [] => [(k, v)]
  | (k', v') :: rest => if k' = k then (k, v) :: rest else (k', v') :: mapInsert rest k v

/-- Go map lookup `m[k]` (the value part; presence is `Option.isSome`). -/
def mapLookup (m : ContentsMap) (k : String) : Option ContentEntry :=
  match m with
  | [] => none
  | (k', v') :: rest => if k' = k then some v' else mapLookup rest k

/-- Embedding of the result-building loop of `githubContents` (firmware.go):
`result[c.Name] = c` executed over the decoded listing, left to right. -/
def githubContentsMap (contents : List ContentEntry) : ContentsMap :=
  contents.foldl (fun result c => mapInsert result c.name c) []

theorem mapInsert_cons_self (tl : ContentsMap) (k : String) (v v' : ContentEntry) :
    mapInsert ((k, v') :: tl) k v = (k, v) :: tl := by
  simp [mapInsert]

theorem mapInsert_cons_ne (tl : ContentsMap) (k k' : String) (v v' : ContentEntry)
    (h : k' ≠ k) : mapInsert ((k', v') :: tl) k v = (k', v') :: mapInsert tl k v := by
  simp [mapInsert, h]

theorem mapLookup_cons_self (tl : ContentsMap) (k : String) (v : ContentEntry) :
    mapLookup ((k, v) :: tl) k = some v := by
  simp [mapLookup]

theorem mapLookup_cons_ne (tl : ContentsMap) (k' n : String) (v : ContentEntry)
    (h : k' ≠ n) : mapLookup ((k', v) :: tl) n = mapLookup tl n := by
  simp [mapLookup, h]

theorem mapLookup_mapInsert_self (m : ContentsMap) (k : String) (v : ContentEntry) :
    mapLookup (mapInsert m k v) k = some v := by
  induction m with
  | nil => simp [mapInsert, mapLookup]
  | cons hd tl ih =>
    obtain ⟨k', v'⟩ := hd
    by_cases h : k' = k
    · subst h
      rw [mapInsert_cons_self, mapLookup_cons_self]
    · rw [mapInsert_cons_ne _ _ _ _ _ h, mapLookup_cons_ne _ _ _ _ h, ih]

theorem mapLookup_mapInsert_ne (m : ContentsMap) (k n : String) (v : ContentEntry)
    (h : n ≠ k) : mapLookup (mapInsert m k v) n = mapLookup m n := by
  have hkn : ¬(k = n) := fun hh => h (Eq.symm hh)
  induction m with
  | nil => simp [mapInsert, mapLookup, hkn]
  | cons hd tl ih =>
    obtain ⟨k', v'⟩ := hd
    by_cases hk : k' = k
    · subst hk
      rw [mapInsert_cons_self, mapLookup_cons_ne _ _ _ _ (fun hh => h (Eq.symm hh)),
        mapLookup_cons_ne _ _ _ _ (fun hh => h (Eq.symm hh))]
    · by_cases hn : k' = n
      · subst hn
        rw [mapInsert_cons_ne _ _ _ _ _ hk, mapLookup_cons_self, mapLookup_cons_self]
      · rw [mapInsert_cons_ne _ _ _ _ _ hk, mapLookup_cons_ne _ _ _ _ hn,
          mapLookup_cons_ne _ _ _ _ hn, ih]

theorem mem_keys_mapInsert (m : ContentsMap) (k n : String) (v : ContentEntry) :
    n ∈ (mapInsert m k v).map Prod.fst ↔ n ∈ m.map Prod.fst ∨ n = k := by
  induction m with
  | nil => simp [mapInsert]
  | cons hd tl ih =>
    obtain ⟨k', v'⟩ := hd
    by_cases h : k' = k
    · subst h
      rw [mapInsert_cons_self]
      simp only [List.map_cons, List.mem_cons]
      tauto
    · rw [mapInsert_cons_ne _ _ _ _ _ h]
      simp only [List.map_cons, List.mem_cons, ih]
      tauto

theorem nodup_keys_mapInsert (m : ContentsMap) (k : String) (v : ContentEntry)
    (h : (m.map Prod.fst).Nodup) : ((mapInsert m k v).map Prod.fst).Nodup := by
  induction m with
  | nil => simp [mapInsert]
  | cons hd tl ih =>
    obtain ⟨k', v'⟩ := hd
    simp only [List.map_cons, List.nodup_cons] at h
    by_cases hk : k' = k
    · subst hk
      rw [mapInsert_cons_self]
      simp only [List.map_cons, List.nodup_cons]
      exact h
    · rw [mapInsert_cons_ne _ _ _ _ _ hk]
      simp only [List.map_cons, List.nodup_cons]
      refine ⟨?_, ih h.2⟩
      rw [mem_keys_mapInsert]
      rintro (hmem | rfl)
      · exact h.1 hmem
      · exact hk rfl

theorem mapLookup_foldl_insert (entries : List ContentEntry) (acc : ContentsMap)
    (name : String) :
    mapLookup (entries.foldl (fun result c => mapInsert result c.name c) acc) name =
      match (entries.filter (fun c => c.name = name)).getLast? with
      | some c => some c
      | none => mapLookup acc name := by
  induction entries generalizing acc with
  | nil => simp
  | cons c rest ih =>
    rw [List.foldl_cons, ih]
    by_cases hrest : (rest.filter (fun c => c.name = name)) = []
    · rw [hrest]
      by_cases hc : c.name = name
      · subst hc
        simp [List.filter_cons, hrest, mapLookup_mapInsert_self]
      · have hne : name ≠ c.name := fun hh => hc (Eq.symm hh)
        simp [List.filter_cons, hc, hrest, mapLookup_mapInsert_ne _ _ _ _ hne]
    · rcases List.eq_nil_or_concat (rest.filter (fun c => c.name = name)) with h | ⟨l', c', hl'⟩
      · exact absurd h hrest
      · rw [List.concat_eq_append] at hl'
        have hlast : (c :: (l' ++ [c'])).getLast? = some c' := by
          rw [show c :: (l' ++ [c']) = (c :: l') ++ [c'] from rfl, List.getLast?_concat]
        by_cases hc : c.name = name
        · simp [List.filter_cons, hc, hl', hlast]
        · simp [List.filter_cons, hc, hl', List.getLast?_concat]

theorem mem_keys_foldl_insert (entries : List ContentEntry) (acc : ContentsMap)
    (name : String) :
    name ∈ ((entries.foldl (fun result c => mapInsert result c.name c) acc).map Prod.fst) ↔
      name ∈ acc.map Prod.fst ∨ name ∈ entries.map ContentEntry.name := by
  induction entries generalizing acc with
  | nil => simp
  | cons c rest ih =>
    rw [List.foldl_cons, ih, mem_keys_mapInsert]
    simp only [List.map_cons, List.mem_cons]
    tauto

theorem nodup_keys_foldl_insert (entries : List ContentEntry) (acc : ContentsMap)
    (h : (acc.map Prod.fst).Nodup) :
    ((entries.foldl (fun result c => mapInsert result c.name c) acc).map Prod.fst).Nodup := by
  induction entries generalizing acc with
  | nil => simpa using h
  | cons c rest ih =>
    rw [List.foldl_cons]
    exact ih _ (nodup_keys_mapInsert _ _ _ h)

/-- C7: the mapping returned by the manifest client has one key per distinct
entry name, and the value stored for a name is the last listing entry bearing
that name, in sequence order (last write wins). -/
theorem githubContentsMap_last_wins (entries : List ContentEntry) :
    (∀ name, mapLookup (githubContentsMap entries) name =
        (entries.filter (fun c => c.name = name)).getLast?)
    ∧ ((githubContentsMap entries).map Prod.fst).Nodup
    ∧ (∀ name, name ∈ (githubContentsMap entries).map Prod.fst ↔
        name ∈ entries.map ContentEntry.name) := by
  refine ⟨fun name => ?_, ?_, fun name => ?_⟩
  · rw [githubContentsMap, mapLookup_foldl_insert]
    cases (entries.filter (fun c => c.name = name)).getLast? <;> simp [mapLookup]
  · exact nodup_keys_foldl_insert _ _ (by simp)
  · rw [githubContentsMap, mem_keys_foldl_insert]
    simp

/-! ### The reconciliation loop

Embedding of the loop over `firmwareFiles` in `main` (firmware.go): for each
local path, look its base name up in the GitHub contents map; a missing entry
produces an obsolete-file warning, a present entry with a differing digest
schedules a download task, and a present entry with an equal digest does
nothing.  The Go loop reads `firmwareHashes[idx]` where `firmwareHashes` is
allocated with exactly `len(firmwareFiles)` slots; the embedding walks both
lists in lockstep (the case of a shorter hash list cannot arise in `main`). -/

/-- Embedding of Go's `filepath.Base` for slash-separated paths: strip trailing
separators, then keep everything after the last separator; empty input gives
"." and an all-separator input gives "/". -/
def goBase (path : String) : String :=
  if path = "" then "."
  else
    let trimmed := (path.toList.reverse.dropWhile (fun c => c = '/')).reverse
    if trimmed = [] then "/"
    else String.mk (trimmed.reverse.takeWhile (fun c => c ≠ '/')).reverse

/-- Download tasks scheduled by the reconciliation loop, in loop order: the
pairs `(path, entry)` for which `deg.Go` is called (digest mismatch). -/
def reconcileTasks : List String → List String → ContentsMap →
    List (String × ContentEntry)
  | [], _, _ => []
  | _ :: _, [], _ => []
  | p :: ps, h :: hs, m =>
    match mapLookup m (goBase p) with
    | none => reconcileTasks ps hs m
    | some e =>
      if h ≠ e.sha then (p, e) :: reconcileTasks ps hs m
      else reconcileTasks ps hs m

/-- Obsolete-file notices emitted by the reconciliation loop, in loop order:
the base names whose lookup in the contents map failed. -/
def reconcileWarnings : List String → List String → ContentsMap → List String
  | [], _, _ => []
  | _ :: _, [], _ => []
  | p :: ps, _ :: hs, m =>
    match mapLookup m (goBase p) with
    | none => goBase p :: reconcileWarnings ps hs m
    | some _ => reconcileWarnings ps hs m

theorem reconcileTasks_cons_none (p : String) (ps : List String) (h : String)
    (hs : List String) (m : ContentsMap) (hlook : mapLookup m (goBase p) = none) :
    reconcileTasks (p :: ps) (h :: hs) m = reconcileTasks ps hs m := by
  simp [reconcileTasks, hlook]

theorem reconcileTasks_cons_some (p : String) (ps : List String) (h : String)
    (hs : List String) (m : ContentsMap) (e : ContentEntry)
    (hlook : mapLookup m (goBase p) = some e) :
    reconcileTasks (p :: ps) (h :: hs) m =
      if h ≠ e.sha then (p, e) :: reconcileTasks ps hs m
      else reconcileTasks ps hs m := by
  simp only [reconcileTasks, hlook]

theorem mem_reconcileTasks (files : List String) (hashes : List String)
    (m : ContentsMap) (t : String × ContentEntry) :
    t ∈ reconcileTasks files hashes m ↔
      ∃ (i : Nat) (hval : String), files[i]? = some t.1 ∧ hashes[i]? = some hval ∧
        mapLookup m (goBase t.1) = some t.2 ∧ hval ≠ t.2.sha := by
  induction files generalizing hashes with
  | nil => simp [reconcileTasks]
  | cons p ps ih =>
    cases hashes with
    | nil =>
      simp only [reconcileTasks, List.not_mem_nil, false_iff]
      rintro ⟨i, hval, -, h2, -⟩
      simp at h2
    | cons h hs =>
      constructor
      · intro hmem
        rcases hlook : mapLookup m (goBase p) with _ | e
        · rw [reconcileTasks_cons_none _ _ _ _ _ hlook] at hmem
          obtain ⟨i, hval, h1, h2, h3, h4⟩ := (ih hs).1 hmem
          exact ⟨i + 1, hval, by simpa using h1, by simpa using h2, h3, h4⟩
        · rw [reconcileTasks_cons_some _ _ _ _ _ _ hlook] at hmem
          by_cases hsha : h ≠ e.sha
          · rw [if_pos hsha] at hmem
            rcases List.mem_cons.1 hmem with rfl | hmem'
            · exact ⟨0, h, by simp, by simp, by simpa using hlook, hsha⟩
            · obtain ⟨i, hval, h1, h2, h3, h4⟩ := (ih hs).1 hmem'
              exact ⟨i + 1, hval, by simpa using h1, by simpa using h2, h3, h4⟩
          · rw [if_neg hsha] at hmem
            obtain ⟨i, hval, h1, h2, h3, h4⟩ := (ih hs).1 hmem
            exact ⟨i + 1, hval, by simpa using h1, by simpa using h2, h3, h4⟩
      · rintro ⟨i, hval, h1, h2, h3, h4⟩
        cases i with
        | zero =>
          simp only [List.getElem?_cons_zero, Option.some_inj] at h1 h2
          subst h1
          subst h2
          rw [reconcileTasks_cons_some _ _ _ _ _ _ h3, if_pos h4]
          exact List.mem_cons_self _ _
        | succ i =>
          simp only [List.getElem?_cons_succ] at h1 h2
          have hmem' : t ∈ reconcileTasks ps hs m :=
            (ih hs).2 ⟨i, hval, h1, h2, h3, h4⟩
          rcases hlook : mapLookup m (goBase p) with _ | e
          · rw [reconcileTasks_cons_none _ _ _ _ _ hlook]
            exact hmem'
          · rw [reconcileTasks_cons_some _ _ _ _ _ _ hlook]
            by_cases hsha : h ≠ e.sha
            · rw [if_pos hsha]
              exact List.mem_cons_of_mem _ hmem'
            · rw [if_neg hsha]
              exact hmem'

theorem reconcileTasks_nil_hashes (files : List String) (m : ContentsMap) :
    reconcileTasks files [] m = [] := by
  cases files <;> simp [reconcileTasks]

theorem lt_length_of_getElem?_some {α : Type} {l : List α} {i : Nat} {a : α}
    (h : l[i]? = some a) : i < l.length := by
  by_contra hge
  rw [List.getElem?_eq_none (Nat.le_of_not_lt hge)] at h
  exact Option.noConfusion h

theorem reconcileWarnings_cons_none (p : String) (ps : List String) (h : String)
    (hs : List String) (m : ContentsMap) (hlook : mapLookup m (goBase p) = none) :
    reconcileWarnings (p :: ps) (h :: hs) m = goBase p :: reconcileWarnings ps hs m := by
  simp [reconcileWarnings, hlook]

theorem reconcileWarnings_cons_some (p : String) (ps : List String) (h : String)
    (hs : List String) (m : ContentsMap) (e : ContentEntry)
    (hlook : mapLookup m (goBase p) = some e) :
    reconcileWarnings (p :: ps) (h :: hs) m = reconcileWarnings ps hs m := by
  simp [reconcileWarnings, hlook]

theorem mem_reconcileWarnings (files : List String) (hashes : List String)
    (m : ContentsMap) (i : Nat) (p : String) (hp : files[i]? = some p)
    (hh : i < hashes.length) (hnone : mapLookup m (goBase p) = none) :
    goBase p ∈ reconcileWarnings files hashes m := by
  induction files generalizing hashes i with
  | nil => simp at hp
  | cons q qs ih =>
    cases hashes with
    | nil => simp at hh
    | cons h hs =>
      cases i with
      | zero =>
        simp only [List.getElem?_cons_zero, Option.some_inj] at hp
        subst hp
        rw [reconcileWarnings_cons_none _ _ _ _ _ hnone]
        exact List.mem_cons_self _ _
      | succ i =>
        simp only [List.getElem?_cons_succ] at hp
        simp only [List.length_cons, Nat.succ_lt_succ_iff] at hh
        have hmem := ih hs i hp hh
        rcases hlook : mapLookup m (goBase q) with _ | e
        · rw [reconcileWarnings_cons_none _ _ _ _ _ hlook]
          exact List.mem_cons_of_mem _ hmem
        · rw [reconcileWarnings_cons_some _ _ _ _ _ _ hlook]
          exact hmem

/-- C1: for a local file whose base name has a remote manifest entry, a
download task targeting that path is scheduled exactly when the locally
computed digest differs (as an opaque string) from the entry's digest; and a
run in which every looked-up digest matches schedules no download at all. -/
theorem reconcile_schedules_iff_digest_mismatch (files : List String)
    (hashes : List String) (m : ContentsMap) (hnd : files.Nodup) :
    (∀ (i : Nat) (p hval : String) (e : ContentEntry),
        files[i]? = some p → hashes[i]? = some hval →
        mapLookup m (goBase p) = some e →
        ((∃ t ∈ reconcileTasks files hashes m, t.1 = p) ↔ hval ≠ e.sha))
    ∧ ((∀ (i : Nat) (p hval : String) (e : ContentEntry),
          files[i]? = some p → hashes[i]? = some hval →
          mapLookup m (goBase p) = some e → hval = e.sha) →
        reconcileTasks files hashes m = []) := by
  constructor
  · intro i p hval e h1 h2 h3
    constructor
    · rintro ⟨t, hmem, hpath⟩
      obtain ⟨j, hval', hj1, hj2, hj3, hj4⟩ := (mem_reconcileTasks _ _ _ _).1 hmem
      rw [hpath] at hj1 hj3
      have hij : i = j := by
        have hlt : i < files.length := by
          by_contra hge
          rw [List.getElem?_eq_none (Nat.le_of_not_lt hge)] at h1
          exact Option.noConfusion h1
        exact List.getElem?_inj hlt hnd (h1.trans hj1.symm)
      subst hij
      rw [h1] at hj1
      rw [h2] at hj2
      rw [h3] at hj3
      cases Option.some_inj.1 hj3
      cases Option.some_inj.1 hj2
      exact hj4
    · intro hne
      refine ⟨(p, e), (mem_reconcileTasks _ _ _ _).2 ⟨i, hval, h1, h2, h3, hne⟩, rfl⟩
  · intro hall
    rw [List.eq_nil_iff_forall_not_mem]
    intro t hmem
    obtain ⟨i, hval, h1, h2, h3, h4⟩ := (mem_reconcileTasks _ _ _ _).1 hmem
    exact h4 (hall i t.1 hval t.2 h1 h2 h3)

/-- Witness for C1 at a concrete run: one file whose digest mismatches is
scheduled, and a run where the digest matches schedules nothing. -/
theorem reconcile_schedules_iff_digest_mismatch_spot :
    (∃ t ∈ reconcileTasks ["fixup.dat"] ["bbb"]
        [("fixup.dat", ⟨"fixup.dat", "ccc", 7, "u1"⟩)], t.1 = "fixup.dat")
    ∧ reconcileTasks ["start.elf"] ["aaa"]
        [("start.elf", ⟨"start.elf", "aaa", 3, "u0"⟩)] = [] := by
  constructor
  · exact ((reconcile_schedules_iff_digest_mismatch ["fixup.dat"] ["bbb"]
        [("fixup.dat", ⟨"fixup.dat", "ccc", 7, "u1"⟩)] (by decide)).1
      0 "fixup.dat" "bbb" ⟨"fixup.dat", "ccc", 7, "u1"⟩ rfl rfl (by decide)).2
      (by decide)
  · refine (reconcile_schedules_iff_digest_mismatch ["start.elf"] ["aaa"]
        [("start.elf", ⟨"start.elf", "aaa", 3, "u0"⟩)] (by decide)).2 ?_
    intro i p hval e h1 h2 h3
    cases i with
    | zero =>
      simp only [List.getElem?_cons_zero, Option.some_inj] at h1 h2
      subst h1
      subst h2
      have : e = ⟨"start.elf", "aaa", 3, "u0"⟩ := by
        have hbase : goBase "start.elf" = "start.elf" := by decide
        rw [hbase] at h3
        simpa [mapLookup] using h3.symm
      rw [this]
    | succ i => simp at h1

/-- C5: a local file whose base name has no remote manifest entry produces an
obsolete-file warning, no download task ever targets its path, and removing it
from the local enumeration leaves the scheduled download set unchanged (so it
cannot influence the download phase or the exit code; nothing in the program
deletes or writes a path without a scheduled task). -/
theorem reconcile_obsolete_file_warned_not_downloaded (files : List String)
    (hashes : List String) (m : ContentsMap) (i : Nat) (p : String)
    (hp : files[i]? = some p) (hlen : hashes.length = files.length)
    (hnone : mapLookup m (goBase p) = none) :
    goBase p ∈ reconcileWarnings files hashes m
    ∧ (∀ t ∈ reconcileTasks files hashes m, t.1 ≠ p)
    ∧ reconcileTasks files hashes m =
        reconcileTasks (files.eraseIdx i) (hashes.eraseIdx i) m := by
  have hlt : i < files.length := by
    by_contra hge
    rw [List.getElem?_eq_none (Nat.le_of_not_lt hge)] at hp
    exact Option.noConfusion hp
  refine ⟨mem_reconcileWarnings _ _ _ i p hp (hlen ▸ hlt) hnone, ?_, ?_⟩
  · rintro t hmem rfl
    obtain ⟨j, hval, hj1, hj2, hj3, hj4⟩ := (mem_reconcileTasks _ _ _ _).1 hmem
    rw [hnone] at hj3
    exact Option.noConfusion hj3
  · clear hlen
    induction files generalizing hashes i with
    | nil => simp at hp
    | cons q qs ih =>
      cases hashes with
      | nil =>
        cases i <;> simp [reconcileTasks, List.eraseIdx, reconcileTasks_nil_hashes]
      | cons h hs =>
        cases i with
        | zero =>
          simp only [List.getElem?_cons_zero, Option.some_inj] at hp
          subst hp
          rw [reconcileTasks_cons_none _ _ _ _ _ hnone]
          simp [List.eraseIdx]
        | succ i =>
          simp only [List.getElem?_cons_succ] at hp
          have htail := ih hs i hp (lt_length_of_getElem?_some hp)
          simp only [List.eraseIdx_cons_succ]
          rcases hlook : mapLookup m (goBase q) with _ | e
          · rw [reconcileTasks_cons_none _ _ _ _ _ hlook,
              reconcileTasks_cons_none _ _ _ _ _ hlook, htail]
          · rw [reconcileTasks_cons_some _ _ _ _ _ _ hlook,
              reconcileTasks_cons_some _ _ _ _ _ _ hlook, htail]

/-- Witness for C5 at a concrete run: an obsolete local file is warned about,
is not scheduled, and does not change the scheduled set. -/
theorem reconcile_obsolete_file_warned_not_downloaded_spot :
    goBase "old.bin" ∈ reconcileWarnings ["old.bin"] ["ddd"]
        [("start.elf", ⟨"start.elf", "aaa", 3, "u0"⟩)]
    ∧ (∀ t ∈ reconcileTasks ["old.bin"] ["ddd"]
        [("start.elf", ⟨"start.elf", "aaa", 3, "u0"⟩)], t.1 ≠ "old.bin")
    ∧ reconcileTasks ["old.bin"] ["ddd"]
        [("start.elf", ⟨"start.elf", "aaa", 3, "u0"⟩)] =
      reconcileTasks (List.eraseIdx ["old.bin"] 0) (List.eraseIdx ["ddd"] 0)
        [("start.elf", ⟨"start.elf", "aaa", 3, "u0"⟩)] :=
  reconcile_obsolete_file_warned_not_downloaded ["old.bin"] ["ddd"]
    [("start.elf", ⟨"start.elf", "aaa", 3, "u0"⟩)] 0 "old.bin" rfl rfl (by decide)

/-- C9: every scheduled download task targets one of the locally enumerated
files; the reconciliation loop iterates over the local file list, so a remote
entry with no matching local file is never scheduled and the run never writes
a path that was not already present locally. -/
theorem reconcile_targets_are_local_files (files : List String)
    (hashes : List String) (m : ContentsMap) (t : String × ContentEntry)
    (hmem : t ∈ reconcileTasks files hashes m) : t.1 ∈ files := by
  obtain ⟨i, hval, h1, _, _, _⟩ := (mem_reconcileTasks _ _ _ _).1 hmem
  exact List.getElem?_mem h1

/-- Witness for C9 at a concrete run with one scheduled task. -/
theorem reconcile_targets_are_local_files_spot :
    ("fixup.dat" : String) ∈ ["fixup.dat"] :=
  reconcile_targets_are_local_files ["fixup.dat"] ["bbb"]
    [("fixup.dat", ⟨"fixup.dat", "ccc", 7, "u1"⟩)]
    ("fixup.dat", ⟨"fixup.dat", "ccc", 7, "u1"⟩) (by decide)

/-! ### Credential resolution and request authentication

Embedding of the `githubToken` flag/environment resolution at the top of
`main` and of `authenticate` (firmware.go): the flag value wins when
non-empty, otherwise the `GITHUB_AUTH_TOKEN` environment value is adopted
when non-empty; `authenticate` attaches `Authorization: Bearer <token>` to a
request exactly when the resolved token is non-empty. -/

/-- Embedding of an `http.Request` as built by `http.NewRequest`: the URL and
the header map (started empty). -/
structure HttpRequest where
  url : String
  headers : List (String × String)
deriving Repr, DecidableEq

/-- Embedding of `http.NewRequest(http.MethodGet, url, nil)`: a request with
no headers yet. -/
def newRequest (url : String) : HttpRequest :=
  { url := url, headers := [] }

/-- Go's `req.Header.Set(k, v)`: replace the value of `k`, or add it. -/
def setHeader (hs : List (String × String)) (k v : String) : List (String × String) :=
  match hs with
  | [] => [(k, v)]
  | (k', v') :: rest => if k' = k then (k, v) :: rest else (k', v') :: setHeader rest k v

/-- Header lookup, for describing what an outgoing request carries. -/
def getHeader (hs : List (String × String)) (k : String) : Option String :=
  match hs with
  | [] => none
  | (k', v') :: rest => if k' = k then some v' else getHeader rest k

/-- Embedding of the `githubToken` resolution in `main`: adopt the
environment token only when the flag is empty and the environment value is
non-empty. -/
def resolveGithubToken (flagToken envToken : String) : String :=
  if flagToken = "" then
    if envToken ≠ "" then envToken else flagToken
  else flagToken

/-- Embedding of `authenticate` (firmware.go): set the bearer Authorization
header when the token is non-empty, otherwise leave the request alone. -/
def authenticate (token : String) (req : HttpRequest) : HttpRequest :=
  if token ≠ "" then
    { req with headers := setHeader req.headers "Authorization" ("Bearer " ++ token) }
  else req

/-- C4: one credential scheme per run with flag-over-environment precedence,
and the Authorization header is attached to a freshly built request exactly
when the resolved token is non-empty; empty flag and empty environment leave
the request without an Authorization header. -/
theorem resolveGithubToken_precedence_auth_header (flagToken envToken url : String) :
    (flagToken ≠ "" → resolveGithubToken flagToken envToken = flagToken)
    ∧ (flagToken = "" → resolveGithubToken flagToken envToken = envToken)
    ∧ (getHeader
          (authenticate (resolveGithubToken flagToken envToken) (newRequest url)).headers
          "Authorization" =
        (if resolveGithubToken flagToken envToken = "" then none
         else some ("Bearer " ++ resolveGithubToken flagToken envToken)))
    ∧ (flagToken = "" → envToken = "" →
        getHeader
          (authenticate (resolveGithubToken flagToken envToken) (newRequest url)).headers
          "Authorization" = none) := by
  refine ⟨fun hf => ?_, fun hf => ?_, ?_, fun hf he => ?_⟩
  · simp [resolveGithubToken, hf]
  · subst hf
    by_cases he : envToken = ""
    · simp [resolveGithubToken, he]
    · simp [resolveGithubToken, he]
  · by_cases ht : resolveGithubToken flagToken envToken = ""
    · simp [authenticate, ht, newRequest, getHeader]
    · simp [authenticate, ht, newRequest, getHeader, setHeader]
  · subst hf
    subst he
    simp [resolveGithubToken, authenticate, newRequest, getHeader]

/-- Witness for C4 at concrete tokens: flag wins over environment, empty flag
falls back to the environment, and empty flag plus empty environment send no
Authorization header. -/
theorem resolveGithubToken_precedence_auth_header_spot :
    resolveGithubToken "flagtok" "envtok" = "flagtok"
    ∧ resolveGithubToken "" "envtok" = "envtok"
    ∧ getHeader
        (authenticate (resolveGithubToken "" "") (newRequest "https://api.github.com")).headers
        "Authorization" = none :=
  ⟨(resolveGithubToken_precedence_auth_header "flagtok" "envtok" "u").1 (by decide),
   (resolveGithubToken_precedence_auth_header "" "envtok" "u").2.1 rfl,
   (resolveGithubToken_precedence_auth_header "" "" "https://api.github.com").2.2.2 rfl rfl⟩

/-! ### The download closure

Embedding of the body of `deg.Go` in `main` (firmware.go): issue the GET for
the entry's `git_url`, then `os.Create` the target path (create-and-truncate),
then `io.Copy` the response body into it.  The outcomes of the three external
steps are parameters; the embedding returns the file content the target path
holds afterwards together with the closure's error result.  `os.Create`
truncates before any byte is copied, and `io.Copy` that fails after `n` bytes
leaves exactly those `n` bytes in the file.  Note the closure reads
`resp.StatusCode` nowhere: the response body is copied whatever the status. -/

/-- Embedding of an HTTP response as seen by the closure: status code and the
bytes of the body stream. -/
structure HttpResponse where
  statusCode : Nat
  body : List Nat
deriving Repr, DecidableEq

/-- Outcome of `io.Copy(f, resp.Body)`: either the whole body is streamed, or
the stream fails after `n` bytes with some error. -/
inductive CopyOutcome where
  | complete
  | failedAfter (n : Nat) (msg : String)
deriving Repr, DecidableEq

/-- Embedding of the download closure.  `oldContent` is what the target file
held before the run; the result pairs the file's content afterwards with the
closure's return value (`Except.ok` = `nil` error). -/
def downloadStep (oldContent : List Nat) (doResult : Except String HttpResponse)
    (createResult : Except String Unit) (copyOutcome : CopyOutcome) :
    List Nat × Except String Unit :=
  match doResult with
  | .error e => (oldContent, .error e)
  | .ok resp =>
    match createResult with
    | .error e => (oldContent, .error e)
    | .ok _ =>
      match copyOutcome with
      | .complete => (resp.body, .ok ())
      | .failedAfter n msg => (resp.body.take n, .error msg)

/-- C3 (code bug): a download whose content-retrieval request comes back with
a non-OK status does NOT fail — the closure never consults `resp.StatusCode`,
so a 404 response has its body (here the bytes of "Not") written over the
firmware file and the task reports success.  The listing fetch
(`githubContents`) does reject non-OK statuses; the download closure omits
that check. -/
theorem downloadStep_ignores_http_status :
    downloadStep [1, 2, 3] (.ok ⟨404, [78, 111, 116]⟩) (.ok ()) .complete
      = ([78, 111, 116], .ok ()) := rfl

/-- C10: download writes are not atomic.  After a successful request the
closure truncates the target via `os.Create` and streams into it, so a copy
that fails after `n` bytes errors out and leaves exactly the first `n` bytes
of the response body in the file; the previous content is gone whenever it
differed from that remnant (in particular a failure after 0 bytes leaves the
file empty). -/
theorem downloadStep_partial_write_on_failure (old : List Nat) (resp : HttpResponse)
    (n : Nat) (msg : String) :
    (downloadStep old (.ok resp) (.ok ()) (.failedAfter n msg)).1 = resp.body.take n
    ∧ (downloadStep old (.ok resp) (.ok ()) (.failedAfter n msg)).2 = .error msg
    ∧ (downloadStep old (.ok resp) (.ok ()) (.failedAfter 0 msg)).1 = []
    ∧ (old ≠ resp.body.take n →
        (downloadStep old (.ok resp) (.ok ()) (.failedAfter n msg)).1 ≠ old) := by
  refine ⟨rfl, rfl, by simp [downloadStep], fun hne => ?_⟩
  simpa [downloadStep] using fun hh => hne (Eq.symm hh)

/-- Witness for C10 at a concrete failing copy: three old bytes are replaced
by a one-byte remnant of the new body. -/
theorem downloadStep_partial_write_on_failure_spot :
    (downloadStep [1, 2, 3] (.ok ⟨200, [9, 9]⟩) (.ok ()) (.failedAfter 1 "eof")).1
      ≠ [1, 2, 3] :=
  (downloadStep_partial_write_on_failure [1, 2, 3] ⟨200, [9, 9]⟩ 1 "eof").2.2.2
    (by decide)

/-! ### The content hasher

Embedding of the hashing closure in `main` (firmware.go) and of the streaming
SHA-1 digest it drives.  The closure stats the opened file, writes the
synthetic header `"blob %d\x00"` (decimal byte length, NUL) into the hash,
streams the file bytes into it with `io.Copy`, and hex-encodes the final sum
with `fmt.Sprintf("%x", ...)`.  The hash itself is Go's `crypto/sha1`, an
external standard-library collaborator: it is modelled here as the standard
streaming SHA-1 digest (five 32-bit words of state, a pending buffer of fewer
than 64 bytes, a byte count; `Write` absorbs full 64-byte blocks greedily,
`Sum` appends the `0x80`/zero/length padding and finalizes).  Bytes are `Nat`
reduced modulo 256 where words are assembled; words are `Nat` reduced modulo
2^32 by every arithmetic step. -/

/-- Rotate a 32-bit word left by `s` bits. -/
def rotl32 (s w : Nat) : Nat :=
  ((w <<< s) ||| (w >>> (32 - s))) % 4294967296

/-- Big-endian 32-bit word from four bytes. -/
def beWord (b0 b1 b2 b3 : Nat) : Nat :=
  ((b0 % 256) <<< 24) ||| ((b1 % 256) <<< 16) ||| ((b2 % 256) <<< 8) ||| (b3 % 256)

/-- Big-endian byte decomposition of a 32-bit word. -/
def beBytes4 (w : Nat) : List Nat :=
  [(w >>> 24) % 256, (w >>> 16) % 256, (w >>> 8) % 256, w % 256]

/-- Big-endian byte decomposition of a 64-bit length field. -/
def beBytes8 (w : Nat) : List Nat :=
  [(w >>> 56) % 256, (w >>> 48) % 256, (w >>> 40) % 256, (w >>> 32) % 256,
   (w >>> 24) % 256, (w >>> 16) % 256, (w >>> 8) % 256, w % 256]

/-- The five words of SHA-1 chaining state. -/
structure Sha1H where
  a : Nat
  b : Nat
  c : Nat
  d : Nat
  e : Nat
deriving Repr, DecidableEq

/-- SHA-1 initialization vector. -/
def sha1InitH : Sha1H :=
  ⟨0x67452301, 0xEFCDAB89, 0x98BADCFE, 0x10325476, 0xC3D2E1F0⟩

/-- The sixteen big-endian message words of a 64-byte block. -/
def chunkWords (chunk : List Nat) : List Nat :=
  (List.range 16).map fun i =>
    beWord (chunk.getD (4 * i) 0) (chunk.getD (4 * i + 1) 0)
      (chunk.getD (4 * i + 2) 0) (chunk.getD (4 * i + 3) 0)

/-- Extend the message schedule by `k` further words, each the 1-bit left
rotation of the xor of the words 3, 8, 14 and 16 positions back. -/
def extendWords (ws : List Nat) : Nat → List Nat
  | 0 => ws
  | k + 1 =>
    extendWords
      (ws ++ [rotl32 1 (ws.getD (ws.length - 3) 0 ^^^ ws.getD (ws.length - 8) 0 ^^^
        ws.getD (ws.length - 14) 0 ^^^ ws.getD (ws.length - 16) 0)]) k

/-- The eighty scheduled words of a block. -/
def sched (chunk : List Nat) : List Nat :=
  extendWords (chunkWords chunk) 64

/-- SHA-1 round function, by round number. -/
def sha1F (i b c d : Nat) : Nat :=
  if i < 20 then (b &&& c) ||| ((b ^^^ 4294967295) &&& d)
  else if i < 40 then b ^^^ c ^^^ d
  else if i < 60 then (b &&& c) ||| (b &&& d) ||| (c &&& d)
  else b ^^^ c ^^^ d

/-- SHA-1 round constant, by round number. -/
def sha1K (i : Nat) : Nat :=
  if i < 20 then 0x5A827999
  else if i < 40 then 0x6ED9EBA1
  else if i < 60 then 0x8F1BBCDC
  else 0xCA62C1D6

/-- One SHA-1 round on the working state. -/
def sha1Round (i w : Nat) (st : Nat × Nat × Nat × Nat × Nat) :
    Nat × Nat × Nat × Nat × Nat :=
  match st with
  | (a, b, c, d, e) =>
    ((rotl32 5 a + sha1F i b c d + e + sha1K i + w) % 4294967296,
      a, rotl32 30 b, c, d)

/-- SHA-1 compression of one 64-byte block into the chaining state. -/
def processChunk (h : Sha1H) (chunk : List Nat) : Sha1H :=
  match ((List.range 80).zip (sched chunk)).foldl
      (fun st iw => sha1Round iw.1 iw.2 st) (h.a, h.b, h.c, h.d, h.e) with
  | (a', b', c', d', e') =>
    ⟨(h.a + a') % 4294967296, (h.b + b') % 4294967296, (h.c + c') % 4294967296,
      (h.d + d') % 4294967296, (h.e + e') % 4294967296⟩

/-- Greedily absorb all full 64-byte blocks of `l` into the chaining state,
returning the new state and the unabsorbed tail (shorter than 64 bytes). -/
def processBlocks (h : Sha1H) (l : List Nat) : Sha1H × List Nat :=
  if _h64 : 64 ≤ l.length then processBlocks (processChunk h (l.take 64)) (l.drop 64)
  else (h, l)
termination_by l.length
decreasing_by
  simp only [List.length_drop]
  omega

/-- State of the streaming digest of `crypto/sha1`: chaining words, pending
buffer, total byte count. -/
structure Sha1Digest where
  h : Sha1H
  x : List Nat
  len : Nat
deriving Repr, DecidableEq

/-- Embedding of `sha1.New()`: fresh chaining state, empty buffer. -/
def sha1New : Sha1Digest :=
  ⟨sha1InitH, [], 0⟩

/-- Embedding of a `Write` on the streaming digest: append to the pending
buffer, absorb every full block, keep the rest pending, count the bytes. -/
def sha1Write (d : Sha1Digest) (p : List Nat) : Sha1Digest :=
  ⟨(processBlocks d.h (d.x ++ p)).1, (processBlocks d.h (d.x ++ p)).2, d.len + p.length⟩

/-- SHA-1 padding for a message of `len` bytes: `0x80`, zeros up to 56 mod 64,
then the bit length as a big-endian 64-bit field. -/
def sha1Padding (len : Nat) : List Nat :=
  let t := len % 64
  let padLen := if t < 56 then 56 - t else 120 - t
  (128 :: List.replicate (padLen - 1) 0) ++ beBytes8 ((len * 8) % 18446744073709551616)

/-- Embedding of `Sum` on the streaming digest: absorb the pending bytes plus
padding (a whole number of blocks) and emit the twenty digest bytes. -/
def sha1Sum (d : Sha1Digest) : List Nat :=
  beBytes4 (processBlocks d.h (d.x ++ sha1Padding d.len)).1.a ++
    beBytes4 (processBlocks d.h (d.x ++ sha1Padding d.len)).1.b ++
    beBytes4 (processBlocks d.h (d.x ++ sha1Padding d.len)).1.c ++
    beBytes4 (processBlocks d.h (d.x ++ sha1Padding d.len)).1.d ++
    beBytes4 (processBlocks d.h (d.x ++ sha1Padding d.len)).1.e

/-- Split a byte list into consecutive 64-byte blocks (the last may be short;
the uses below only ever split lists whose length is a multiple of 64). -/
def chunks64 (l : List Nat) : List (List Nat) :=
  if 0 < l.length then l.take 64 :: chunks64 (l.drop 64) else []
termination_by l.length
decreasing_by
  simp only [List.length_drop]
  omega

/-- Reference one-shot SHA-1 of a whole message, stated per the spec: pad the
message, compress the blocks in order, emit the digest bytes. -/
def sha1OneShot (msg : List Nat) : List Nat :=
  beBytes4 ((chunks64 (msg ++ sha1Padding msg.length)).foldl processChunk sha1InitH).a ++
    beBytes4 ((chunks64 (msg ++ sha1Padding msg.length)).foldl processChunk sha1InitH).b ++
    beBytes4 ((chunks64 (msg ++ sha1Padding msg.length)).foldl processChunk sha1InitH).c ++
    beBytes4 ((chunks64 (msg ++ sha1Padding msg.length)).foldl processChunk sha1InitH).d ++
    beBytes4 ((chunks64 (msg ++ sha1Padding msg.length)).foldl processChunk sha1InitH).e

/-- ASCII bytes of a Lean string (all strings involved are ASCII). -/
def strBytes (s : String) : List Nat :=
  s.toList.map Char.toNat

/-- Decimal digits of `n`, least significant first. -/
def decDigitsRev (n : Nat) : List Nat :=
  if h : n < 10 then [n]
  else (n % 10) :: decDigitsRev (n / 10)
termination_by n
decreasing_by
  exact Nat.div_lt_self (by omega) (by omega)

/-- ASCII bytes of `fmt`'s `%d` for a non-negative size: decimal digits, most
significant first. -/
def decBytes (n : Nat) : List Nat :=
  (decDigitsRev n).reverse.map (fun d => d + 48)

/-- Bytes written into the hash by `fmt.Fprintf(hash, "blob %d\x00", size)`. -/
def blobHeader (n : Nat) : List Nat :=
  strBytes "blob " ++ decBytes n ++ [0]

/-- Lowercase hex digit. -/
def hexDigit (n : Nat) : Char :=
  if n < 10 then Char.ofNat (48 + n) else Char.ofNat (87 + n)

/-- Two lowercase hex digits of one byte, as printed by `%x` on a byte slice. -/
def hexByte (b : Nat) : List Char :=
  [hexDigit ((b / 16) % 16), hexDigit (b % 16)]

/-- Embedding of `fmt.Sprintf("%x", bytes)`. -/
def hexString (bs : List Nat) : String :=
  String.mk (bs.map hexByte).flatten

/-- Embedding of the hashing closure in `main`: make a fresh SHA-1, write the
`"blob %d\x00"` header for the stat'd size (the byte length of the content),
stream the file content into the hash, and hex-encode the sum. -/
def hashClosure (content : List Nat) : String :=
  hexString (sha1Sum (sha1Write (sha1Write sha1New (blobHeader content.length)) content))

/-- Specification-side digest: the hex-encoded one-shot hash of the synthetic
header followed by the raw bytes — the git blob object-identity digest. -/
def gitBlobDigest (content : List Nat) : String :=
  hexString (sha1OneShot (blobHeader content.length ++ content))

theorem processBlocks_of_ge (h : Sha1H) (l : List Nat) (h64 : 64 ≤ l.length) :
    processBlocks h l = processBlocks (processChunk h (l.take 64)) (l.drop 64) := by
  conv_lhs => unfold processBlocks
  rw [dif_pos h64]

theorem processBlocks_of_lt (h : Sha1H) (l : List Nat) (hlt : l.length < 64) :
    processBlocks h l = (h, l) := by
  conv_lhs => unfold processBlocks
  rw [dif_neg (by omega)]

theorem processBlocks_append_aux (n : Nat) :
    ∀ (l : List Nat), l.length ≤ n → ∀ (h : Sha1H) (m : List Nat),
      processBlocks h (l ++ m) =
        processBlocks (processBlocks h l).1 ((processBlocks h l).2 ++ m) := by
  induction n with
  | zero =>
    intro l hl h m
    have hnil : l = [] := List.eq_nil_of_length_eq_zero (Nat.le_zero.mp hl)
    subst hnil
    rw [processBlocks_of_lt h [] (by simp)]
  | succ n ih =>
    intro l hl h m
    by_cases h64 : 64 ≤ l.length
    · have h64' : 64 ≤ (l ++ m).length := by
        rw [List.length_append]
        omega
      rw [processBlocks_of_ge h _ h64', List.take_append_of_le_length h64,
        List.drop_append_of_le_length h64, processBlocks_of_ge h l h64]
      exact ih (l.drop 64) (by rw [List.length_drop]; omega) _ m
    · rw [processBlocks_of_lt h l (by omega)]

theorem processBlocks_append (h : Sha1H) (l m : List Nat) :
    processBlocks h (l ++ m) =
      processBlocks (processBlocks h l).1 ((processBlocks h l).2 ++ m) :=
  processBlocks_append_aux l.length l le_rfl h m

theorem sha1Write_append (d : Sha1Digest) (a b : List Nat) :
    sha1Write (sha1Write d a) b = sha1Write d (a ++ b) := by
  have key := processBlocks_append d.h (d.x ++ a) b
  rw [List.append_assoc] at key
  simp only [sha1Write, ← key, List.length_append, Sha1Digest.mk.injEq, true_and]
  omega

theorem chunks64_of_pos (l : List Nat) (hpos : 0 < l.length) :
    chunks64 l = l.take 64 :: chunks64 (l.drop 64) := by
  conv_lhs => unfold chunks64
  rw [if_pos hpos]

theorem chunks64_nil : chunks64 [] = [] := by
  unfold chunks64
  simp

theorem processBlocks_of_mod_aux (n : Nat) :
    ∀ (l : List Nat), l.length ≤ n → l.length % 64 = 0 → ∀ (h : Sha1H),
      processBlocks h l = ((chunks64 l).foldl processChunk h, []) := by
  induction n with
  | zero =>
    intro l hl _ h
    have hnil : l = [] := List.eq_nil_of_length_eq_zero (Nat.le_zero.mp hl)
    subst hnil
    rw [processBlocks_of_lt h [] (by simp), chunks64_nil]
    rfl
  | succ n ih =>
    intro l hl hmod h
    by_cases hnil : l = []
    · subst hnil
      rw [processBlocks_of_lt h [] (by simp), chunks64_nil]
      rfl
    · have hpos : 0 < l.length := List.length_pos.mpr hnil
      have h64 : 64 ≤ l.length := by omega
      rw [processBlocks_of_ge h l h64, chunks64_of_pos l hpos, List.foldl_cons]
      exact ih (l.drop 64) (by rw [List.length_drop]; omega)
        (by rw [List.length_drop]; omega) _

theorem processBlocks_of_mod (l : List Nat) (hmod : l.length % 64 = 0) (h : Sha1H) :
    processBlocks h l = ((chunks64 l).foldl processChunk h, []) :=
  processBlocks_of_mod_aux l.length l le_rfl hmod h

theorem sha1Padding_mod (n : Nat) : (n + (sha1Padding n).length) % 64 = 0 := by
  simp only [sha1Padding, List.length_append, List.length_cons,
    List.length_replicate, beBytes8, List.length_nil]
  by_cases hlt : n % 64 < 56
  · rw [if_pos hlt]
    omega
  · rw [if_neg hlt]
    omega

theorem sha1Sum_write_new (msg : List Nat) :
    sha1Sum (sha1Write sha1New msg) = sha1OneShot msg := by
  have e1 : (sha1Write sha1New msg).h = (processBlocks sha1InitH msg).1 := by
    simp [sha1Write, sha1New]
  have e2 : (sha1Write sha1New msg).x = (processBlocks sha1InitH msg).2 := by
    simp [sha1Write, sha1New]
  have e3 : (sha1Write sha1New msg).len = msg.length := by
    simp [sha1Write, sha1New]
  have key : processBlocks (sha1Write sha1New msg).h
      ((sha1Write sha1New msg).x ++ sha1Padding (sha1Write sha1New msg).len) =
      ((chunks64 (msg ++ sha1Padding msg.length)).foldl processChunk sha1InitH, []) := by
    rw [e1, e2, e3, ← processBlocks_append]
    exact processBlocks_of_mod _
      (by rw [List.length_append]; have := sha1Padding_mod msg.length; omega) _
  simp only [sha1Sum, sha1OneShot, key]

/-- C2: the hashing closure — header write, then content write, then sum —
produces exactly the hex-encoded one-shot hash of
`"blob " ++ decimal(length) ++ NUL ++ content`, the git blob object-identity
digest of the content. -/
theorem hashClosure_eq_gitBlobDigest (content : List Nat) :
    hashClosure content = gitBlobDigest content := by
  unfold hashClosure gitBlobDigest
  rw [sha1Write_append, sha1Sum_write_new]

theorem decDigitsRev_lt_ten (n : Nat) : ∀ d ∈ decDigitsRev n, d < 10 := by
  induction n using Nat.strong_induction_on with
  | _ n ih =>
    by_cases h : n < 10
    · rw [decDigitsRev, dif_pos h]
      intro d hd
      rcases List.mem_singleton.1 hd with rfl
      exact h
    · rw [decDigitsRev, dif_neg h]
      intro d hd
      rcases List.mem_cons.1 hd with rfl | hd'
      · omega
      · exact ih (n / 10) (Nat.div_lt_self (by omega) (by omega)) d hd'

theorem decBytes_ne_zero (n : Nat) : ∀ b ∈ decBytes n, b ≠ 0 := by
  intro b hb
  simp only [decBytes, List.mem_map, List.mem_reverse] at hb
  obtain ⟨d, _, rfl⟩ := hb
  omega

theorem append_zero_split :
    ∀ (a1 a2 b1 b2 : List Nat), (∀ x ∈ a1, x ≠ 0) → (∀ x ∈ a2, x ≠ 0) →
      a1 ++ 0 :: b1 = a2 ++ 0 :: b2 → a1 = a2 ∧ b1 = b2 := by
  intro a1
  induction a1 with
  | nil =>
    intro a2 b1 b2 _ h2 he
    cases a2 with
    | nil => simpa using he
    | cons y ys =>
      simp only [List.nil_append, List.cons_append, List.cons.injEq] at he
      exact absurd he.1.symm (h2 y (List.mem_cons_self _ _))
  | cons x xs ih =>
    intro a2 b1 b2 h1 h2 he
    cases a2 with
    | nil =>
      simp only [List.cons_append, List.nil_append, List.cons.injEq] at he
      exact absurd he.1 (h1 x (List.mem_cons_self _ _))
    | cons y ys =>
      simp only [List.cons_append, List.cons.injEq] at he
      obtain ⟨rfl, he'⟩ := he
      obtain ⟨ha, hb⟩ := ih ys b1 b2
        (fun z hz => h1 z (List.mem_cons_of_mem _ hz))
        (fun z hz => h2 z (List.mem_cons_of_mem _ hz)) he'
      exact ⟨by rw [ha], hb⟩

/-- C8 (amended): the digest computation is a pure function of the content
(deterministic across runs), and the hash input framing is injective:
contents differing in bytes or in length produce different hash input
streams, because the NUL-terminated decimal length in the header delimits
it unambiguously.  (Digest strings can still coincide when SHA-1 itself
collides on the two streams; see the companion non-injectivity theorem.) -/
theorem hashClosure_deterministic_and_frame_injective :
    (∀ content : List Nat, hashClosure content = hashClosure content)
    ∧ (∀ c1 c2 : List Nat, c1 ≠ c2 →
        blobHeader c1.length ++ c1 ≠ blobHeader c2.length ++ c2) := by
  refine ⟨fun _ => rfl, fun c1 c2 hne heq => hne ?_⟩
  have hre : ∀ (n : Nat) (c : List Nat),
      blobHeader n ++ c = strBytes "blob " ++ (decBytes n ++ (0 :: c)) := by
    intro n c
    simp [blobHeader, List.append_assoc]
  rw [hre, hre] at heq
  have hmid := List.append_cancel_left heq
  exact (append_zero_split _ _ _ _ (decBytes_ne_zero c1.length)
    (decBytes_ne_zero c2.length) hmid).2

/-- Witness for the amended C8 at two concrete contents: the empty content
and the one-byte content frame differently. -/
theorem hashClosure_deterministic_and_frame_injective_spot :
    blobHeader (List.length ([] : List Nat)) ++ ([] : List Nat) ≠
      blobHeader [0].length ++ [0] :=
  hashClosure_deterministic_and_frame_injective.2 [] [0] (by decide)

theorem sha1Sum_length (d : Sha1Digest) : (sha1Sum d).length = 20 := by
  simp [sha1Sum, beBytes4]

theorem beBytes4_lt_256 (w : Nat) : ∀ b ∈ beBytes4 w, b < 256 := by
  intro b hb
  simp only [beBytes4, List.mem_cons, List.not_mem_nil, or_false] at hb
  rcases hb with rfl | rfl | rfl | rfl <;> exact Nat.mod_lt _ (by omega)

theorem sha1Sum_lt_256 (d : Sha1Digest) : ∀ b ∈ sha1Sum d, b < 256 := by
  intro b hb
  simp only [sha1Sum, List.mem_append] at hb
  rcases hb with (((h | h) | h) | h) | h <;> exact beBytes4_lt_256 _ _ h

/-- C8 (counterexample to the claim as stated): the digest does not separate
every pair of distinct inputs.  The digest string has 40 hex characters, so
there are finitely many digests but infinitely many contents; by the
pigeonhole principle two distinct all-zero contents of different lengths
share one digest string. -/
theorem hashClosure_not_injective :
    ¬ (∀ c1 c2 : List Nat, (∀ b ∈ c1, b < 256) → (∀ b ∈ c2, b < 256) →
        c1 ≠ c2 → hashClosure c1 ≠ hashClosure c2) := by
  intro hinj
  obtain ⟨m, n, hmn, hfeq⟩ := Finite.exists_ne_map_eq_of_infinite
    (fun k : Nat => fun i : Fin 20 =>
      (⟨(sha1Sum (sha1Write (sha1Write sha1New
            (blobHeader (List.replicate k 0).length)) (List.replicate k 0))).getD i 0 % 256,
        Nat.mod_lt _ (by omega)⟩ : Fin 256))
  have hlist :
      sha1Sum (sha1Write (sha1Write sha1New
          (blobHeader (List.replicate m 0).length)) (List.replicate m 0)) =
      sha1Sum (sha1Write (sha1Write sha1New
          (blobHeader (List.replicate n 0).length)) (List.replicate n 0)) := by
    apply List.ext_getElem (by rw [sha1Sum_length, sha1Sum_length])
    intro i h1 h2
    have h20 : i < 20 := by
      rw [sha1Sum_length] at h1
      exact h1
    have hcomp := congrFun hfeq ⟨i, h20⟩
    simp only [Fin.mk.injEq] at hcomp
    rw [List.getD_eq_getElem _ _ h1, List.getD_eq_getElem _ _ h2] at hcomp
    rw [Nat.mod_eq_of_lt (sha1Sum_lt_256 _ _ (List.getElem_mem h1)),
      Nat.mod_eq_of_lt (sha1Sum_lt_256 _ _ (List.getElem_mem h2))] at hcomp
    exact hcomp
  have hclo : hashClosure (List.replicate m 0) = hashClosure (List.replicate n 0) := by
    unfold hashClosure
    rw [hlist]
  refine hinj (List.replicate m 0) (List.replicate n 0) ?_ ?_ ?_ hclo
  · intro b hb
    rw [List.eq_of_mem_replicate hb]
    omega
  · intro b hb
    rw [List.eq_of_mem_replicate hb]
    omega
  · intro he
    apply hmn
    have := congrArg List.length he
    simpa using this

end GokrFirmware
